import Mathlib

/-!
Verification of the stroopmouse_data selection-and-aggregation core.

The Python source lives in two files:

* `stroopmouse_data/dataset/core.py` — the dataset builder: class `DataSet`
  (activity log, mouse list), class `Mouse` (date selection) and class
  `Date` (block selection).
* `stroopmouse_data/data/core.py` — the dataset reader: `Mouse.get_data`
  and the reshaping helpers `as_array` and `as_vector`.

Modelling conventions of this shallow embedding:

* Python strings are `String`; h5py groups are insertion-ordered
  association lists `List (String × _)`; the h5py attribute map backing
  the activity log is an insertion-ordered `List (String × String)` where
  assignment overwrites an existing key in place and appends a fresh key.
* `datetime.now().strftime` is an explicit clock oracle `Nat → String`
  indexed by the session log counter (the counter is the only state the
  code threads between log calls, so the oracle determinizes the clock).
* Python `str(n)` on the non-negative log counter is `natToString`, a
  fuel-based decimal renderer, and `str.zfill` is `zfill`.
* Errors raised by the reader (`KeyError` on a missing field, `ValueError`
  from `max([])`) are the `ReaderErr` values the specification names
  (`fieldNotFound`, `emptyInput`).
-/

/-! ## Decimal rendering of the session counter

`DataSet.log_event` builds the attribute key
`f-string: <timestamp> (<str(log_count).zfill(3)>)`.  `natToDigitsAux` is
fuel-based so the kernel can evaluate it; `natToString n` supplies fuel
`n + 1`, which is always sufficient. -/

def digitChar (n : Nat) : Char := Char.ofNat (48 + n)

def natToDigitsAux : Nat → Nat → List Char
  | 0, _ => []
  | fuel + 1, n =>
    if n < 10 then [digitChar n]
    else natToDigitsAux fuel (n / 10) ++ [digitChar (n % 10)]

def natToString (n : Nat) : String := ⟨natToDigitsAux (n + 1) n⟩

/-- Inverse reading of a decimal digit, used only to prove injectivity of
the rendering. -/
def digitVal (c : Char) : Nat := c.toNat - 48

def decodeDigits (l : List Char) : Nat :=
  l.foldl (fun a c => 10 * a + digitVal c) 0

theorem digitVal_digitChar (n : Nat) (h : n < 10) :
    digitVal (digitChar n) = n := by
  interval_cases n <;> decide

theorem natToDigitsAux_foldl (fuel : Nat) :
    ∀ n, n < fuel → ∀ a : Nat,
      (natToDigitsAux fuel n).foldl (fun a c => 10 * a + digitVal c) a
        = a * 10 ^ (natToDigitsAux fuel n).length + n := by
  induction fuel with
  | zero => intro n hn; omega
  | succ fuel ih =>
    intro n hn a
    by_cases h10 : n < 10
    · simp only [natToDigitsAux, if_pos h10, List.foldl_cons, List.foldl_nil,
        List.length_cons, List.length_nil, digitVal_digitChar n h10]
      ring
    · have hdiv : n / 10 < fuel := by
        have h1 : n / 10 < n := Nat.div_lt_self (by omega) (by omega)
        omega
      simp only [natToDigitsAux, if_neg h10, List.foldl_append,
        List.length_append, List.foldl_cons, List.foldl_nil,
        List.length_cons, List.length_nil, Nat.zero_add]
      rw [ih (n / 10) hdiv a]
      have hmod : digitVal (digitChar (n % 10)) = n % 10 :=
        digitVal_digitChar _ (Nat.mod_lt _ (by omega))
      rw [hmod, pow_succ]
      generalize (10:Nat) ^ (natToDigitsAux fuel (n / 10)).length = P
      have hlin : a * (P * 10) = 10 * (a * P) := by ring
      omega

theorem decodeDigits_natToString (n : Nat) :
    decodeDigits (natToString n).data = n := by
  have := natToDigitsAux_foldl (n + 1) n (Nat.lt_succ_self n) 0
  simpa [decodeDigits, natToString] using this

theorem natToString_inj {m n : Nat} (h : natToString m = natToString n) :
    m = n := by
  have := congrArg (fun s => decodeDigits s.data) h
  simpa [decodeDigits_natToString] using this

/-! ## The composite activity-log key

`str.zfill(3)` pads on the left with zeros to width 3. -/

def zfill (w : Nat) (s : String) : String :=
  ⟨List.replicate (w - s.length) '0' ++ s.data⟩

theorem decodeDigits_replicate_zero (k : Nat) (l : List Char) :
    decodeDigits (List.replicate k '0' ++ l) = decodeDigits l := by
  induction k with
  | zero => rfl
  | succ k ih =>
    simpa [decodeDigits, List.replicate_succ, digitVal] using ih

theorem zfill_natToString_inj (w : Nat) {m n : Nat}
    (h : zfill w (natToString m) = zfill w (natToString n)) : m = n := by
  have hd := congrArg String.data h
  simp only [zfill] at hd
  have hm := congrArg decodeDigits hd
  rw [decodeDigits_replicate_zero, decodeDigits_replicate_zero] at hm
  have h1 : decodeDigits (natToString m).data = m := decodeDigits_natToString m
  have h2 : decodeDigits (natToString n).data = n := decodeDigits_natToString n
  omega

/-- Composite activity-log key written by `DataSet.log_event`
(`dataset/core.py` lines 85-88): the current timestamp followed by the
zero-padded session counter in parentheses. -/
def mkLogKey (ts : String) (count : Nat) : String :=
  ts ++ " (" ++ zfill 3 (natToString count) ++ ")"

theorem data_append (s t : String) : (s ++ t).data = s.data ++ t.data := by
  cases s; cases t; rfl

theorem string_ext {s t : String} (h : s.data = t.data) : s = t := by
  cases s; cases t; exact congrArg String.mk h

theorem mkLogKey_data (ts : String) (count : Nat) :
    (mkLogKey ts count).data
      = ts.data ++ (" (").data ++ (zfill 3 (natToString count)).data ++ (")").data := by
  simp [mkLogKey, data_append]

theorem mkLogKey_inj {t1 t2 : String} {c1 c2 : Nat}
    (hl : t1.length = t2.length) (h : mkLogKey t1 c1 = mkLogKey t2 c2) :
    t1 = t2 ∧ c1 = c2 := by
  have hd := congrArg String.data h
  rw [mkLogKey_data, mkLogKey_data] at hd
  have hlen : t1.data.length = t2.data.length := hl
  rw [List.append_assoc, List.append_assoc, List.append_assoc, List.append_assoc] at hd
  obtain ⟨ht, hrest⟩ := List.append_inj hd hlen
  have hrest2 := List.append_cancel_left hrest
  have hrest3 := List.append_cancel_right hrest2
  exact ⟨string_ext ht, zfill_natToString_inj 3 (string_ext hrest3)⟩

/-! ## First-occurrence deduplication

`Date.add_block` (dataset/core.py line 351) removes duplicate filenames
with `list(dict.fromkeys(blocks))`, which keeps the first occurrence of
each filename in input order.  `pyDedupAux` carries the set of filenames
already seen. -/

def pyDedupAux [DecidableEq α] (seen : List α) : List α → List α
  | [] => []
  | a :: l => if a ∈ seen then pyDedupAux seen l else a :: pyDedupAux (a :: seen) l

def pyDedup [DecidableEq α] (l : List α) : List α := pyDedupAux [] l

theorem mem_pyDedupAux [DecidableEq α] (l : List α) :
    ∀ (seen : List α) (b : α), b ∈ pyDedupAux seen l ↔ b ∈ l ∧ b ∉ seen := by
  induction l with
  | nil => intro seen b; simp [pyDedupAux]
  | cons a l ih =>
    intro seen b
    by_cases ha : a ∈ seen
    · rw [pyDedupAux, if_pos ha, ih seen b]
      simp only [List.mem_cons]
      constructor
      · rintro ⟨h1, h2⟩; exact ⟨Or.inr h1, h2⟩
      · rintro ⟨(rfl | h1), h2⟩
        · exact absurd ha h2
        · exact ⟨h1, h2⟩
    · rw [pyDedupAux, if_neg ha]
      simp only [List.mem_cons, ih (a :: seen) b]
      constructor
      · rintro (rfl | ⟨h1, h2⟩)
        · exact ⟨Or.inl rfl, ha⟩
        · exact ⟨Or.inr h1, fun hb => h2 (Or.inr hb)⟩
      · rintro ⟨(rfl | h1), h2⟩
        · exact Or.inl rfl
        · by_cases hab : b = a
          · exact Or.inl hab
          · exact Or.inr ⟨h1, fun hb => hb.elim hab h2⟩

theorem mem_pyDedup [DecidableEq α] (l : List α) (b : α) :
    b ∈ pyDedup l ↔ b ∈ l := by
  rw [pyDedup, mem_pyDedupAux]
  simp

theorem pyDedupAux_nodup [DecidableEq α] (l : List α) :
    ∀ seen : List α, (pyDedupAux seen l).Nodup := by
  induction l with
  | nil => intro seen; simp [pyDedupAux]
  | cons a l ih =>
    intro seen
    by_cases ha : a ∈ seen
    · rw [pyDedupAux, if_pos ha]; exact ih seen
    · rw [pyDedupAux, if_neg ha]
      refine List.Nodup.cons ?_ (ih (a :: seen))
      intro hmem
      exact ((mem_pyDedupAux l (a :: seen) a).mp hmem).2 (List.mem_cons_self a seen)

theorem pyDedup_nodup [DecidableEq α] (l : List α) : (pyDedup l).Nodup :=
  pyDedupAux_nodup l []

theorem pyDedupAux_sublist [DecidableEq α] (l : List α) :
    ∀ seen : List α, List.Sublist (pyDedupAux seen l) l := by
  induction l with
  | nil => intro seen; simp [pyDedupAux]
  | cons a l ih =>
    intro seen
    by_cases ha : a ∈ seen
    · rw [pyDedupAux, if_pos ha]; exact (ih seen).cons a
    · rw [pyDedupAux, if_neg ha]; exact (ih (a :: seen)).cons₂ a

theorem pyDedup_sublist [DecidableEq α] (l : List α) :
    List.Sublist (pyDedup l) l :=
  pyDedupAux_sublist l []

theorem pyDedupAux_map [DecidableEq α] [DecidableEq β] (f : α → β) (l : List α) :
    ∀ seen : List α,
      (∀ x, (x ∈ l ∨ x ∈ seen) → ∀ y, (y ∈ l ∨ y ∈ seen) → f x = f y → x = y) →
      (pyDedupAux seen l).map f = pyDedupAux (seen.map f) (l.map f) := by
  induction l with
  | nil => intro seen _; simp [pyDedupAux]
  | cons a l ih =>
    intro seen hf
    have hside : ∀ x, (x ∈ l ∨ x ∈ a :: seen) → ∀ y, (y ∈ l ∨ y ∈ a :: seen) →
        f x = f y → x = y := by
      intro x hx y hy
      apply hf
      · rcases hx with h | h
        · exact Or.inl (List.mem_cons_of_mem _ h)
        · rcases List.mem_cons.mp h with h | h
          · exact Or.inl (h ▸ List.mem_cons_self a l)
          · exact Or.inr h
      · rcases hy with h | h
        · exact Or.inl (List.mem_cons_of_mem _ h)
        · rcases List.mem_cons.mp h with h | h
          · exact Or.inl (h ▸ List.mem_cons_self a l)
          · exact Or.inr h
    by_cases ha : a ∈ seen
    · have hfa : f a ∈ seen.map f := List.mem_map_of_mem f ha
      rw [List.map_cons, pyDedupAux, if_pos ha, pyDedupAux, if_pos hfa]
      exact ih seen fun x hx y hy => hf x (hx.imp (List.mem_cons_of_mem _) id)
        y (hy.imp (List.mem_cons_of_mem _) id)
    · have hfa : f a ∉ seen.map f := by
        intro hmem
        obtain ⟨x, hx, hfx⟩ := List.mem_map.mp hmem
        have : x = a := hf x (Or.inr hx) a (Or.inl (List.mem_cons_self a l)) hfx
        exact ha (this ▸ hx)
      rw [List.map_cons, pyDedupAux, if_neg ha, pyDedupAux, if_neg hfa,
        List.map_cons]
      rw [ih (a :: seen) hside]
      rfl

theorem pyDedup_map [DecidableEq α] [DecidableEq β] (f : α → β) (l : List α)
    (hf : ∀ x ∈ l, ∀ y ∈ l, f x = f y → x = y) :
    (pyDedup l).map f = pyDedup (l.map f) := by
  rw [pyDedup, pyDedup, pyDedupAux_map f l []]
  · rfl
  · intro x hx y hy
    apply hf <;> tauto

/-! ## Association-list view of an h5py group

Group indexing (`hdf[name]`), `require_group`, dataset assignment and
subtree deletion are modelled on insertion-ordered association lists. -/

def getVal : List (String × α) → String → Option α
  | [], _ => none
  | p :: l, k => if p.1 = k then some p.2 else getVal l k

/-- Assignment to an existing key: every entry carrying the key is
replaced in place. -/
def set_key (g : List (String × α)) (k : String) (v : α) : List (String × α) :=
  g.map (fun p => if p.1 = k then (k, v) else p)

/-- Model of `h5py.require_group`: keep an existing child group, create an
empty one otherwise. -/
def require_group (g : List (String × α)) (k : String) (empty : α) :
    List (String × α) :=
  if (getVal g k).isSome then g else g ++ [(k, empty)]

/-- Model of Python `list.remove`: drop the first occurrence. -/
def removeFirst : List String → String → List String
  | [], _ => []
  | a :: l, x => if a = x then l else a :: removeFirst l x

theorem getVal_append_right (g : List (String × α)) (k : String) (v : α)
    (h : getVal g k = none) : getVal (g ++ [(k, v)]) k = some v := by
  induction g with
  | nil => simp [getVal]
  | cons p l ih =>
    rw [getVal] at h
    by_cases hp : p.1 = k
    · rw [if_pos hp] at h; exact absurd h (by simp)
    · rw [if_neg hp] at h
      simpa [getVal, hp] using ih h

theorem getVal_require_group_isSome (g : List (String × α)) (k : String)
    (empty : α) : (getVal (require_group g k empty) k).isSome := by
  rw [require_group]
  by_cases h : (getVal g k).isSome
  · rwa [if_pos h]
  · rw [if_neg h]
    have hnone : getVal g k = none := by
      cases hg : getVal g k
      · rfl
      · exact absurd (by rw [hg]; rfl) h
    rw [getVal_append_right g k empty hnone]
    rfl

theorem getVal_set_key (g : List (String × α)) (k : String) (v : α)
    (h : (getVal g k).isSome) : getVal (set_key g k v) k = some v := by
  induction g with
  | nil => exact absurd h (by simp [getVal])
  | cons p l ih =>
    by_cases hp : p.1 = k
    · simp [set_key, getVal, hp]
    · rw [getVal, if_neg hp] at h
      simpa [set_key, getVal, hp] using ih h

theorem getVal_filter_ne (g : List (String × α)) (m k : String) (hk : k ≠ m) :
    getVal (g.filter (fun p => p.1 ≠ m)) k = getVal g k := by
  induction g with
  | nil => rfl
  | cons p l ih =>
    by_cases hp : p.1 = m
    · have hpk : p.1 ≠ k := fun h => hk (h.symm.trans hp)
      rw [List.filter_cons_of_neg (by simpa using hp)]
      conv_rhs => rw [getVal]
      rw [if_neg hpk]
      exact ih
    · rw [List.filter_cons_of_pos (by simpa using hp)]
      conv_lhs => rw [getVal]
      conv_rhs => rw [getVal]
      by_cases hpk : p.1 = k
      · rw [if_pos hpk, if_pos hpk]
      · rw [if_neg hpk, if_neg hpk]; exact ih

theorem getVal_filter_self (g : List (String × α)) (m : String) :
    getVal (g.filter (fun p => p.1 ≠ m)) m = none := by
  induction g with
  | nil => rfl
  | cons p l ih =>
    by_cases hp : p.1 = m
    · rwa [List.filter_cons_of_neg (by simpa using hp)]
    · rw [List.filter_cons_of_pos (by simpa using hp)]
      conv_lhs => rw [getVal]
      rw [if_neg hp]
      exact ih

/-! ## Builder state

`DSState` is the observable state of one `DataSet` object
(dataset/core.py class `DataSet`): the in-memory `mouse_list`, the
persisted tree of per-mouse groups, the in-memory mouse objects, the
activity-log attribute map and the session counter `log_count`.

A date group holds an optional `blocks` dataset (a list of
single-character block numbers), so `DateGroup := Option Blocks`;
a mouse subtree maps date names to date groups. -/

abbrev Blocks := List Char
abbrev DateGroup := Option Blocks
abbrev MouseTree := List (String × DateGroup)

structure MouseObj where
  name : String
  date_list : List String
deriving DecidableEq

structure DSState where
  mouse_list : List String
  tree : List (String × MouseTree)
  mouse_objects : List MouseObj
  log : List (String × String)
  log_count : Nat
deriving DecidableEq

/-- Assignment into the h5py attribute map backing the activity log:
overwrite in place when the key exists, append otherwise. -/
def attrsSet (l : List (String × String)) (k v : String) :
    List (String × String) :=
  if k ∈ l.map Prod.fst then l.map (fun p => if p.1 = k then (k, v) else p)
  else l ++ [(k, v)]

/-- Model of `DataSet.log_event` (dataset/core.py lines 83-89): write the
message under the composite key for the current clock reading and counter,
then increment the counter. -/
def log_event (clock : Nat → String) (s : DSState) (msg : String) : DSState :=
  { s with
    log := attrsSet s.log (mkLogKey (clock s.log_count) s.log_count) msg,
    log_count := s.log_count + 1 }

/-- Model of `DataSet.add_mouse` (dataset/core.py lines 91-101), without
the interactive `choose_dates` continuation: when the mouse is not yet
selected, append it to `mouse_list`, `require_group` its subtree,
instantiate a `Mouse` object from the group keys, and log the addition. -/
def add_mouse (clock : Nat → String) (s : DSState) (m : String) : DSState :=
  if m ∈ s.mouse_list then s
  else
    let tree1 := require_group s.tree m []
    log_event clock
      { s with
        mouse_list := s.mouse_list ++ [m],
        tree := tree1,
        mouse_objects :=
          s.mouse_objects ++ [⟨m, ((getVal tree1 m).getD []).map Prod.fst⟩] }
      ("Added mouse " ++ m)

/-- Model of the mouse-removal branch of `DataSet.delete_mode`
(dataset/core.py lines 116-121): when the mouse is selected, remove it
from `mouse_list`, delete its persistent subtree, drop its in-memory
object, and log the removal. -/
def remove_mouse (clock : Nat → String) (s : DSState) (m : String) : DSState :=
  if m ∈ s.mouse_list then
    log_event clock
      { s with
        mouse_list := removeFirst s.mouse_list m,
        tree := s.tree.filter (fun p => p.1 ≠ m),
        mouse_objects := s.mouse_objects.filter (fun o => o.name ≠ m) }
      ("Removed mouse " ++ m)
  else s

/-! ## Mouse-scope state

`MouseState` is the observable state of one `Mouse` object together with
the dataset pieces it mutates: the in-memory `date_list` and
`date_objects`, its persistent group of date subgroups, and the shared
activity log. -/

structure MouseState where
  date_list : List String
  date_objects : List String
  group : List (String × DateGroup)
  log : List (String × String)
  log_count : Nat
deriving DecidableEq

/-- Activity-log write as seen from a `Mouse` or `Date` object (they call
`self.dataset.log_event`). -/
def mlog_event (clock : Nat → String) (s : MouseState) (msg : String) :
    MouseState :=
  { s with
    log := attrsSet s.log (mkLogKey (clock s.log_count) s.log_count) msg,
    log_count := s.log_count + 1 }

/-- Model of `Mouse.remove_date` (dataset/core.py lines 234-240): if the
date is selected, remove it from `date_list`, delete the persisted date
subtree, and drop the in-memory `Date` object.  No log entry is written
here. -/
def remove_date (s : MouseState) (d : String) : MouseState :=
  if d ∈ s.date_list then
    { s with
      date_list := removeFirst s.date_list d,
      group := s.group.filter (fun p => p.1 ≠ d),
      date_objects := s.date_objects.filter (fun x => x ≠ d) }
  else s

/-- Block number extracted from a block filename: the character at the
fixed offset 6 from the end (`block[-6]`, dataset/core.py line 355).
Python raises `IndexError` on filenames shorter than 6 characters; real
block filenames are always longer. -/
def blockNum (b : String) : Char := b.data.getD (b.data.length - 6) '?'

/-- Model of `Date.add_block` (dataset/core.py lines 345-360) for the date
`d`: delete any existing `blocks` dataset, deduplicate the filenames
keeping first occurrences, log one `Added <filename>` entry per distinct
filename, then write the extracted block-number list. -/
def add_block (clock : Nat → String) (s : MouseState) (d : String)
    (blocks : List String) : MouseState :=
  let s1 : MouseState := { s with group := set_key s.group d none }
  let bs := pyDedup blocks
  let s2 := bs.foldl (fun st b => mlog_event clock st ("Added " ++ b)) s1
  { s2 with group := set_key s2.group d (some (bs.map blockNum)) }

/-- Model of `Mouse.add_date` (dataset/core.py lines 202-211): remove the
date first (remove-then-add deduplication), append it to `date_list`,
`require_group` a fresh empty date subtree, create the `Date` object, and
run block selection for the blocks the session chooses
(`choose_blocks` ends by calling `add_block`). -/
def add_date (clock : Nat → String) (s : MouseState) (d : String)
    (chosen : List String) : MouseState :=
  let s1 := remove_date s d
  let s2 : MouseState :=
    { s1 with
      date_list := s1.date_list ++ [d],
      group := require_group s1.group d none,
      date_objects := s1.date_objects ++ [d] }
  add_block clock s2 d chosen

/-- Selected blocks persisted for date `d`. -/
def blocksOf (s : MouseState) (d : String) : Option Blocks :=
  (getVal s.group d).join

/-! ## Activity-log lemmas -/

theorem attrsSet_mem_self (l : List (String × String)) (k v : String) :
    (k, v) ∈ attrsSet l k v := by
  rw [attrsSet]
  by_cases h : k ∈ l.map Prod.fst
  · rw [if_pos h]
    obtain ⟨p, hp, hpk⟩ := List.mem_map.mp h
    exact List.mem_map.mpr ⟨p, hp, by rw [if_pos hpk]⟩
  · rw [if_neg h]
    exact List.mem_append_right _ (List.mem_singleton.mpr rfl)

theorem attrsSet_mem_preserve (l : List (String × String)) (k v k2 v2 : String)
    (hne : k2 ≠ k) (h : (k2, v2) ∈ l) : (k2, v2) ∈ attrsSet l k v := by
  rw [attrsSet]
  by_cases hk : k ∈ l.map Prod.fst
  · rw [if_pos hk]
    refine List.mem_map.mpr ⟨(k2, v2), h, ?_⟩
    rw [if_neg (by simpa using hne)]
  · rw [if_neg hk]
    exact List.mem_append_left _ h

theorem attrsSet_append_of_fresh (l : List (String × String)) (k v : String)
    (h : k ∉ l.map Prod.fst) : attrsSet l k v = l ++ [(k, v)] := by
  rw [attrsSet, if_neg h]

/-! ## Session-scoped log-key uniqueness (machinery for C3)

A session is a list of messages folded through `log_event`; the clock
oracle may return the same timestamp for every call. -/

def runSession (clock : Nat → String) (s : DSState) (msgs : List String) :
    DSState :=
  msgs.foldl (log_event clock) s

/-- Keys a session starting at counter `c0` generates for its `n` calls. -/
def sessionKeys (clock : Nat → String) (c0 n : Nat) : List String :=
  (List.range n).map fun i => mkLogKey (clock (c0 + i)) (c0 + i)

theorem sessionKeys_nodup (clock : Nat → String)
    (hclock : ∀ n, (clock n).length = 19) (c0 n : Nat) :
    (sessionKeys clock c0 n).Nodup := by
  rw [sessionKeys]
  refine List.Nodup.map_on ?_ (List.nodup_range n)
  intro i hi j hj heq
  have := (mkLogKey_inj (by rw [hclock, hclock]) heq).2
  omega

theorem runSession_preserve (clock : Nat → String) (msgs : List String) :
    ∀ (s : DSState) (k v : String), (k, v) ∈ s.log →
      (∀ j, k ≠ mkLogKey (clock (s.log_count + j)) (s.log_count + j)) →
      (k, v) ∈ (runSession clock s msgs).log := by
  induction msgs with
  | nil => intro s k v hmem _; exact hmem
  | cons m rest ih =>
    intro s k v hmem hfresh
    have hstep : (k, v) ∈ (log_event clock s m).log := by
      rw [log_event]
      exact attrsSet_mem_preserve _ _ _ _ _
        (by simpa using hfresh 0) hmem
    have hcount : (log_event clock s m).log_count = s.log_count + 1 := rfl
    refine ih (log_event clock s m) k v hstep ?_
    intro j
    rw [hcount]
    have := hfresh (j + 1)
    have harith : s.log_count + (j + 1) = s.log_count + 1 + j := by omega
    rwa [harith] at this

theorem runSession_mem (clock : Nat → String)
    (hclock : ∀ n, (clock n).length = 19) (msgs : List String) :
    ∀ (s : DSState) (i : Nat) (hi : i < msgs.length),
      (mkLogKey (clock (s.log_count + i)) (s.log_count + i), msgs.get ⟨i, hi⟩)
        ∈ (runSession clock s msgs).log := by
  induction msgs with
  | nil => intro s i hi; exact absurd hi (by simp)
  | cons m rest ih =>
    intro s i hi
    cases i with
    | zero =>
      have hself : (mkLogKey (clock s.log_count) s.log_count, m)
          ∈ (log_event clock s m).log := by
        rw [log_event]
        exact attrsSet_mem_self _ _ _
      have hrun : runSession clock s (m :: rest)
          = runSession clock (log_event clock s m) rest := rfl
      rw [hrun]
      have hfresh : ∀ j, mkLogKey (clock s.log_count) s.log_count
          ≠ mkLogKey (clock ((log_event clock s m).log_count + j))
              ((log_event clock s m).log_count + j) := by
        intro j heq
        have := (mkLogKey_inj (by rw [hclock, hclock]) heq).2
        have hcount : (log_event clock s m).log_count = s.log_count + 1 := rfl
        omega
      simpa using runSession_preserve clock rest (log_event clock s m)
        _ _ hself hfresh
    | succ i2 =>
      have hi2 : i2 < rest.length := by
        simpa using Nat.lt_of_succ_lt_succ hi
      have := ih (log_event clock s m) i2 hi2
      have hcount : (log_event clock s m).log_count = s.log_count + 1 := rfl
      rw [hcount] at this
      have harith : s.log_count + 1 + i2 = s.log_count + (i2 + 1) := by omega
      rw [harith] at this
      exact this

/-! ## Step traces of the mutating operations (for C1)

Each mutating operation performs a sequence of persistent writes: data
writes to the store (`Step.store`) and activity-log writes (`Step.logw`).
The traces below mirror the statement order of the Python source. -/

inductive Step where
  | store (desc : String) : Step
  | logw (msg : String) : Step
deriving DecidableEq

def Step.isLog : Step → Bool
  | .logw _ => true
  | .store _ => false

def Step.isStore : Step → Bool
  | .store _ => true
  | .logw _ => false

/-- Every log write in the trace is preceded by some completed data
write.  This is the ordering property §5 of the specification asserts for
every mutating operation. -/
def dataBeforeLog (tr : List Step) : Prop :=
  ∀ j : Fin tr.length, (tr.get j).isLog = true →
    ∃ i : Fin tr.length, i.1 < j.1 ∧ (tr.get i).isStore = true

/-- Every log write in the trace is followed by a later data write: the
operation completes its data write only after logging. -/
def logBeforeFinalStore (tr : List Step) : Prop :=
  ∀ j : Fin tr.length, (tr.get j).isLog = true →
    ∃ i : Fin tr.length, j.1 < i.1 ∧ (tr.get i).isStore = true

instance (tr : List Step) : Decidable (dataBeforeLog tr) := by
  unfold dataBeforeLog
  infer_instance

instance (tr : List Step) : Decidable (logBeforeFinalStore tr) := by
  unfold logBeforeFinalStore
  infer_instance

/-- Trace of `DataSet.add_mouse` (lines 93-98): `require_group`, then the
log entry; nothing when the mouse is already selected. -/
def addMouseTrace (already : Bool) (m : String) : List Step :=
  if already then []
  else [.store ("create group " ++ m), .logw ("Added mouse " ++ m)]

/-- Trace of the removal branch of `DataSet.delete_mode` (lines 116-121):
`del self.hdf[mouse]`, then the log entry. -/
def removeMouseTrace (selected : Bool) (m : String) : List Step :=
  if selected then
    [.store ("delete group " ++ m), .logw ("Removed mouse " ++ m)]
  else []

/-- Trace of `Mouse.remove_date` (lines 234-240): only the subtree
deletion; `remove_date` logs nothing itself. -/
def removeDateTrace (selected : Bool) (d : String) : List Step :=
  if selected then [.store ("delete group " ++ d)] else []

/-- Trace of the removal branch of `Mouse.delete_mode` (lines 226-228):
`remove_date`, then the log entry. -/
def removeDateModeTrace (selected : Bool) (d : String) : List Step :=
  removeDateTrace selected d ++ if selected then [.logw ("Removed " ++ d)] else []

/-- Trace of `Date.add_block` (lines 345-360): delete the existing
`blocks` dataset when present, then one log entry per deduplicated
filename, and the write of the block-number list last. -/
def addBlockTrace (hasBlocks : Bool) (blocks : List String) : List Step :=
  (if hasBlocks then [Step.store "delete blocks"] else [])
    ++ (pyDedup blocks).map (fun b => Step.logw ("Added " ++ b))
    ++ [Step.store "write blocks"]

/-- Trace of `Mouse.add_date` (lines 202-211): `remove_date`, the
`require_group` of the fresh date subtree, then block selection on the
fresh (blockless) subtree. -/
def addDateTrace (selected : Bool) (d : String) (blocks : List String) :
    List Step :=
  removeDateTrace selected d ++ [Step.store ("create group " ++ d)]
    ++ addBlockTrace false blocks

theorem dataBeforeLog_nil : dataBeforeLog [] := by
  intro j
  exact absurd j.2 (by simp)

theorem dataBeforeLog_store_cons (sdesc : String) (tr : List Step) :
    dataBeforeLog (Step.store sdesc :: tr) := by
  intro j hj
  refine ⟨⟨0, by simp⟩, ?_, rfl⟩
  rcases j with ⟨jv, hjlt⟩
  cases jv with
  | zero => exact absurd hj (by simp [Step.isLog])
  | succ j2 => exact Nat.succ_pos j2

theorem get_concat_length (tr : List Step) (a : Step)
    (h : tr.length < (tr ++ [a]).length) :
    (tr ++ [a]).get ⟨tr.length, h⟩ = a := by
  induction tr with
  | nil => rfl
  | cons b tr ih => exact ih (by simp)

theorem get_concat_lt (tr : List Step) (a : Step) (j : Nat)
    (hj : j < tr.length) (h : j < (tr ++ [a]).length) :
    (tr ++ [a]).get ⟨j, h⟩ = tr.get ⟨j, hj⟩ := by
  induction tr generalizing j with
  | nil => exact absurd hj (by simp)
  | cons b tr ih =>
    cases j with
    | zero => rfl
    | succ j2 => exact ih j2 (by simpa using hj) (by simpa using h)

theorem logBeforeFinalStore_concat (tr : List Step) (sdesc : String) :
    logBeforeFinalStore (tr ++ [Step.store sdesc]) := by
  intro j hj
  have hj2 : j.1 < tr.length + 1 := by
    have := j.2
    simpa using this
  have hjlt : j.1 < tr.length := by
    rcases Nat.lt_succ_iff_lt_or_eq.mp hj2 with h | h
    · exact h
    · exfalso
      have : (tr ++ [Step.store sdesc]).get j = Step.store sdesc := by
        have := get_concat_length tr (Step.store sdesc) (by simp)
        have hje : j = ⟨tr.length, by simp⟩ := Fin.ext h
        rw [hje]
        exact this
      rw [this] at hj
      exact absurd hj (by simp [Step.isLog])
  refine ⟨⟨tr.length, by simp⟩, hjlt, ?_⟩
  rw [get_concat_length tr (Step.store sdesc) (by simp)]
  rfl

/-! ## Reader model

`stroopmouse_data/data/core.py`: `Mouse.get_data` collects one sequence
per experiment and `as_array` / `as_vector` reshape nested sequences.
`ReaderErr` abstracts the exceptions the reader raises: `KeyError` on a
missing field path (`fieldNotFound`) and `ValueError` from `max([])` on
an empty collection (`emptyInput`). -/

inductive ReaderErr where
  | emptyInput
  | fieldNotFound
deriving DecidableEq

/-- Python `max` over a list of lengths, folded; `as_array` only calls it
on a non-empty list, where this agrees with `max`. -/
def maxLength (l : List Nat) : Nat := l.foldl max 0

/-- Model of `as_array` (data/core.py lines 207-233): a missing value is
`none` (the `np.nan` fill); each row is the left-aligned copy of one
input sequence, padded to the longest length.  `max` of an empty
collection raises, which the specification calls `EmptyInput`. -/
def as_array {α : Type} (nested_vectors : List (List α)) :
    Except ReaderErr (List (List (Option α))) :=
  match nested_vectors with
  | [] => .error .emptyInput
  | v :: rest =>
    let max_length := maxLength ((v :: rest).map List.length)
    .ok ((v :: rest).map fun w =>
      w.map some ++ List.replicate (max_length - w.length) none)

/-- Model of `as_vector` (data/core.py lines 235-254): concatenate all
nested sequences in input order via repeated `np.append`. -/
def as_vector {α : Type} (nested_vectors : List (List α)) : List α :=
  nested_vectors.foldl (fun acc v => acc ++ v) []

/-- One experiment record: its attribute map and its dataset map, each
mapping an hdf5 path to a numeric sequence. -/
structure ExpRecord where
  attrs : List (String × List Int)
  dsets : List (String × List Int)
deriving DecidableEq

/-- Field lookup of one experiment, switched by the `attr` flag exactly
as in `Mouse.get_data` (data/core.py lines 130-133). -/
def expField (attr : Bool) (e : ExpRecord) (path : String) :
    Option (List Int) :=
  getVal (if attr then e.attrs else e.dsets) path

/-- The collection loop of `Mouse.get_data`: one sequence per experiment,
aborting with the raised `KeyError` at the first experiment missing the
path. -/
def collectData (attr : Bool) (path : String) :
    List ExpRecord → Option (List (List Int))
  | [] => some []
  | e :: es =>
    match expField attr e path with
    | none => none
    | some v => (collectData attr path es).map (fun rest => v :: rest)

inductive GDResult where
  | nested (rows : List (List Int))
  | flat (v : List Int)
deriving DecidableEq

/-- Model of `Mouse.get_data` (data/core.py lines 108-141): collect one
sequence per experiment; a missing path raises (`fieldNotFound`);
`vector=True` concatenates via `as_vector`.  The `string` decode flag
only re-types values and is not modelled. -/
def get_data (exps : List ExpRecord) (path : String) (vector attr : Bool) :
    Except ReaderErr GDResult :=
  match collectData attr path exps with
  | none => .error .fieldNotFound
  | some data => .ok (if vector then .flat (as_vector data) else .nested data)

/-! ## Quality-flag check

`Date.check_experiment_msg` (dataset/core.py lines 362-385). -/

/-- Observable outcome of one `check_experiment_msg` call:
whether the experimenter message was surfaced for confirmation
(`requiresConfirmation`), which message, and the returned
should-the-block-be-added boolean. -/
structure QualityCheck where
  requiresConfirmation : Bool
  message : Option String
  addBlock : Bool
deriving DecidableEq

/-- Model of `Date.check_experiment_msg`: when the stored
`experimental_quality` attribute contains the character `n`, print the
stored `experimental_message` and let the interactive answer decide;
otherwise return `True` with no message shown. -/
def check_experiment_msg (quality msg answer : String) : QualityCheck :=
  if 'n' ∈ quality.data then
    { requiresConfirmation := true, message := some msg,
      addBlock := 'y' ∈ answer.data }
  else
    { requiresConfirmation := false, message := none, addBlock := true }

/-! ## Lemmas about block and date selection -/

theorem foldl_mlog_group (clock : Nat → String) (bs : List String) :
    ∀ s : MouseState,
      (bs.foldl (fun st b => mlog_event clock st ("Added " ++ b)) s).group
        = s.group := by
  induction bs with
  | nil => intro s; rfl
  | cons b bs ih => intro s; exact ih (mlog_event clock s ("Added " ++ b))

theorem getVal_set_key_isSome (g : List (String × α)) (k : String) (v : α)
    (h : (getVal g k).isSome) : (getVal (set_key g k v) k).isSome := by
  rw [getVal_set_key g k v h]
  rfl

theorem add_block_blocksOf (clock : Nat → String) (s : MouseState)
    (d : String) (blocks : List String)
    (hd : (getVal s.group d).isSome) :
    blocksOf (add_block clock s d blocks) d
      = some ((pyDedup blocks).map blockNum) := by
  rw [add_block, blocksOf]
  have h1 : (getVal (set_key s.group d none) d).isSome :=
    getVal_set_key_isSome s.group d none hd
  rw [foldl_mlog_group]
  rw [getVal_set_key _ d _ h1]
  rfl

theorem add_date_blocksOf (clock : Nat → String) (s : MouseState)
    (d : String) (chosen : List String) :
    blocksOf (add_date clock s d chosen) d
      = some ((pyDedup chosen).map blockNum) := by
  rw [add_date]
  exact add_block_blocksOf clock _ d chosen
    (getVal_require_group_isSome (remove_date s d).group d none)

/-! ## Lemmas about the fold-based maximum (for C6) -/

theorem le_foldl_max (l : List Nat) : ∀ a : Nat, a ≤ l.foldl max a := by
  induction l with
  | nil => intro a; exact Nat.le_refl a
  | cons x l ih =>
    intro a
    exact le_trans (Nat.le_max_left a x) (ih (max a x))

theorem mem_le_foldl_max (l : List Nat) :
    ∀ (a : Nat), ∀ x ∈ l, x ≤ l.foldl max a := by
  induction l with
  | nil => intro a x hx; exact absurd hx (by simp)
  | cons y l ih =>
    intro a x hx
    rcases List.mem_cons.mp hx with rfl | hx
    · exact le_trans (Nat.le_max_right a x) (le_foldl_max l (max a x))
    · exact ih (max a y) x hx

theorem foldl_max_mem (l : List Nat) :
    ∀ a : Nat, l.foldl max a ∈ l ∨ l.foldl max a = a := by
  induction l with
  | nil => intro a; exact Or.inr rfl
  | cons x l ih =>
    intro a
    rw [List.foldl_cons]
    rcases ih (max a x) with h | h
    · exact Or.inl (List.mem_cons_of_mem _ h)
    · rcases Nat.le_total a x with hax | hax
      · rw [h, Nat.max_eq_right hax]
        exact Or.inl (List.mem_cons_self x l)
      · rw [h, Nat.max_eq_left hax]
        exact Or.inr rfl

/-! ## Lemmas about the reader collection loop (for C9) -/

theorem collectData_none (attr : Bool) (path : String)
    (exps : List ExpRecord) (e : ExpRecord) (he : e ∈ exps)
    (hmiss : expField attr e path = none) :
    collectData attr path exps = none := by
  induction exps with
  | nil => exact absurd he (by simp)
  | cons f fs ih =>
    rcases List.mem_cons.mp he with rfl | he2
    · rw [collectData, hmiss]
    · rw [collectData]
      cases hf : expField attr f path
      · rfl
      · rw [ih he2]
        rfl

theorem collectData_length (attr : Bool) (path : String) :
    ∀ (exps : List ExpRecord) (rows : List (List Int)),
      collectData attr path exps = some rows → rows.length = exps.length := by
  intro exps
  induction exps with
  | nil =>
    intro rows h
    rw [collectData] at h
    cases h
    rfl
  | cons f fs ih =>
    intro rows h
    rw [collectData] at h
    cases hf : expField attr f path with
    | none => rw [hf] at h; cases h
    | some v =>
      rw [hf] at h
      cases hrest : collectData attr path fs with
      | none => rw [hrest] at h; cases h
      | some rest =>
        rw [hrest] at h
        cases h
        simpa using ih rest hrest

theorem getVal_eq_none (g : List (String × α)) (k : String)
    (h : k ∉ g.map Prod.fst) : getVal g k = none := by
  induction g with
  | nil => rfl
  | cons p l ih =>
    rw [getVal]
    have hp : p.1 ≠ k := fun he => h (by simp [he])
    rw [if_neg hp]
    exact ih (fun hm => h (List.mem_cons_of_mem _ hm))

/-! # Claims

Shared concrete fixtures used by witnesses and counterexamples. -/

/-- Constant clock oracle: every call happens in the same clock second
(the forced duplicate-timestamp scenario). -/
def clock0 : Nat → String := fun _ => "2024-05-06 12:00:00"

/-- Fresh empty dataset state. -/
def st0 : DSState :=
  { mouse_list := [], tree := [], mouse_objects := [], log := [], log_count := 0 }

/-- Dataset state with two selected mice and one earlier log entry. -/
def st2 : DSState :=
  { mouse_list := ["7011", "7012"],
    tree := [("7011", [("2023-01-01", some ['1'])]),
             ("7012", [("2023-01-02", some ['2'])])],
    mouse_objects := [⟨"7011", ["2023-01-01"]⟩, ⟨"7012", ["2023-01-02"]⟩],
    log := [("2024-05-06 11:00:00 (000)", "User Message: start")],
    log_count := 1 }

/-- Mouse-scope state with one selected date whose subtree has no
`blocks` dataset yet. -/
def mstateC2 : MouseState :=
  { date_list := ["2023-01-01"], date_objects := ["2023-01-01"],
    group := [("2023-01-01", none)], log := [], log_count := 0 }

/-- C1 counterexample: in `Date.add_block` the per-block audit-log
entries (line 358) are written before the block-list data write
(line 360), so on a fresh date subtree the very first persistent write of
the operation is a log write with no completed data write before it,
falsifying the claimed data-write-then-log-write ordering for addBlocks. -/
theorem add_block_logs_before_write_cex :
    ¬ dataBeforeLog (addBlockTrace false ["ms7011_2023-01-01_block1.hdf5"]) := by
  decide

/-- C1 (amended): for addMouse, removeMouse, removeDate (both alone and
inside delete mode) and addDate, every audit-log write in the step
sequence is preceded by a completed data write; for addBlocks the order
is reversed: every per-block log entry is written first and the
block-list data write completes the operation afterwards. -/
theorem data_write_ordering_amended (m d : String)
    (already selected hasBlocks : Bool) (blocks : List String) :
    dataBeforeLog (addMouseTrace already m)
    ∧ dataBeforeLog (removeMouseTrace selected m)
    ∧ dataBeforeLog (removeDateTrace selected d)
    ∧ dataBeforeLog (removeDateModeTrace selected d)
    ∧ dataBeforeLog (addDateTrace selected d blocks)
    ∧ logBeforeFinalStore (addBlockTrace hasBlocks blocks) := by
  refine ⟨?_, ?_, ?_, ?_, ?_, ?_⟩
  · cases already with
    | false =>
      have he : addMouseTrace false m
          = Step.store ("create group " ++ m)
            :: [Step.logw ("Added mouse " ++ m)] := rfl
      rw [he]
      exact dataBeforeLog_store_cons _ _
    | true =>
      have he : addMouseTrace true m = [] := rfl
      rw [he]
      exact dataBeforeLog_nil
  · cases selected with
    | false =>
      have he : removeMouseTrace false m = [] := rfl
      rw [he]
      exact dataBeforeLog_nil
    | true =>
      have he : removeMouseTrace true m
          = Step.store ("delete group " ++ m)
            :: [Step.logw ("Removed mouse " ++ m)] := rfl
      rw [he]
      exact dataBeforeLog_store_cons _ _
  · cases selected with
    | false =>
      have he : removeDateTrace false d = [] := rfl
      rw [he]
      exact dataBeforeLog_nil
    | true =>
      have he : removeDateTrace true d
          = Step.store ("delete group " ++ d) :: [] := rfl
      rw [he]
      exact dataBeforeLog_store_cons _ _
  · cases selected with
    | false =>
      have he : removeDateModeTrace false d = [] := rfl
      rw [he]
      exact dataBeforeLog_nil
    | true =>
      have he : removeDateModeTrace true d
          = Step.store ("delete group " ++ d)
            :: [Step.logw ("Removed " ++ d)] := rfl
      rw [he]
      exact dataBeforeLog_store_cons _ _
  · cases selected with
    | false =>
      have he : addDateTrace false d blocks
          = Step.store ("create group " ++ d) :: addBlockTrace false blocks := rfl
      rw [he]
      exact dataBeforeLog_store_cons _ _
    | true =>
      have he : addDateTrace true d blocks
          = Step.store ("delete group " ++ d)
            :: (Step.store ("create group " ++ d) :: addBlockTrace false blocks) := rfl
      rw [he]
      exact dataBeforeLog_store_cons _ _
  · have he : addBlockTrace hasBlocks blocks
        = ((if hasBlocks then [Step.store "delete blocks"] else [])
            ++ (pyDedup blocks).map (fun b => Step.logw ("Added " ++ b)))
          ++ [Step.store "write blocks"] := by
      rw [addBlockTrace, List.append_assoc]
    rw [he]
    exact logBeforeFinalStore_concat _ _

/-- C1 witness: a fresh addMouse trace satisfies the data-then-log
ordering, and an addBlocks trace places its block-list data write after
the log entries. -/
theorem data_write_ordering_amended_witness :
    dataBeforeLog (addMouseTrace false "7011")
    ∧ logBeforeFinalStore (addBlockTrace false ["ms7011_2023-01-01_block2.hdf5"]) :=
  ⟨(data_write_ordering_amended "7011" "2023-01-01" false false false []).1,
   (data_write_ordering_amended "7011" "2023-01-01" false false false
      ["ms7011_2023-01-01_block2.hdf5"]).2.2.2.2.2⟩

/-- C2 counterexample: the deduplication of `Date.add_block` acts on
filenames, not on block numbers; two distinct available filenames whose
6th-from-last characters coincide both survive, so the persisted
block-number list holds a duplicate block number, falsifying the claimed
no-duplicate invariant. -/
theorem add_block_duplicate_numbers_cex :
    ("a_block1.hdf5" : String) ≠ "b_block1.hdf5"
    ∧ blocksOf (add_block clock0 mstateC2 "2023-01-01"
        ["a_block1.hdf5", "b_block1.hdf5"]) "2023-01-01"
      = some ['1', '1']
    ∧ ¬ (['1', '1'] : List Char).Nodup := by
  refine ⟨by decide, by decide, by decide⟩

/-- C2 (amended): the persisted block-number list is the 6th-from-last
character of each first-occurrence-deduplicated input filename, in that
order; provided distinct available filenames carry distinct block numbers
(the naming-format contract), the persisted list has no duplicates, every
entry is among the available block numbers, and the list equals the
first-occurrence deduplication of the input block numbers. -/
theorem add_block_dedup_amended (clock : Nat → String) (s : MouseState)
    (d : String) (avail blocks : List String)
    (hd : (getVal s.group d).isSome)
    (hsub : ∀ b ∈ blocks, b ∈ avail)
    (hinj : ∀ b1 ∈ avail, ∀ b2 ∈ avail, blockNum b1 = blockNum b2 → b1 = b2) :
    blocksOf (add_block clock s d blocks) d
      = some ((pyDedup blocks).map blockNum)
    ∧ ((pyDedup blocks).map blockNum).Nodup
    ∧ (∀ c ∈ (pyDedup blocks).map blockNum, c ∈ avail.map blockNum)
    ∧ (pyDedup blocks).map blockNum = pyDedup (blocks.map blockNum) := by
  refine ⟨add_block_blocksOf clock s d blocks hd, ?_, ?_, ?_⟩
  · refine List.Nodup.map_on ?_ (pyDedup_nodup blocks)
    intro x hx y hy hxy
    exact hinj x (hsub x ((mem_pyDedup blocks x).mp hx))
      y (hsub y ((mem_pyDedup blocks y).mp hy)) hxy
  · intro c hc
    obtain ⟨b, hb, rfl⟩ := List.mem_map.mp hc
    exact List.mem_map_of_mem blockNum (hsub b ((mem_pyDedup blocks b).mp hb))
  · exact pyDedup_map blockNum blocks
      (fun x hx y hy => hinj x (hsub x hx) y (hsub y hy))

/-- C2 witness: conventional filenames with distinct block characters
produce a duplicate-free block-number list in first-occurrence order. -/
theorem add_block_dedup_amended_witness :
    blocksOf (add_block clock0 mstateC2 "2023-01-01"
        ["ms1_2023-01-01_block1.hdf5", "ms1_2023-01-01_block2.hdf5",
         "ms1_2023-01-01_block1.hdf5"]) "2023-01-01"
      = some ['1', '2']
    ∧ (['1', '2'] : List Char).Nodup := by
  have h := add_block_dedup_amended clock0 mstateC2 "2023-01-01"
    ["ms1_2023-01-01_block1.hdf5", "ms1_2023-01-01_block2.hdf5"]
    ["ms1_2023-01-01_block1.hdf5", "ms1_2023-01-01_block2.hdf5",
     "ms1_2023-01-01_block1.hdf5"]
    (by decide) (by decide) (by decide)
  have he : (pyDedup ["ms1_2023-01-01_block1.hdf5", "ms1_2023-01-01_block2.hdf5",
      "ms1_2023-01-01_block1.hdf5"]).map blockNum = ['1', '2'] := by decide
  exact ⟨h.1.trans (by rw [he]), he ▸ h.2.1⟩

/-- C4: addDate has remove-then-add semantics, so calling
`addDate(d)` twice leaves exactly the blocks selected by the second call
persisted for `d` — never a union of both calls — and the result equals a
single second call. -/
theorem add_date_remove_then_add (clock : Nat → String) (s : MouseState)
    (d : String) (bs1 bs2 : List String) :
    blocksOf (add_date clock (add_date clock s d bs1) d bs2) d
      = some ((pyDedup bs2).map blockNum)
    ∧ blocksOf (add_date clock (add_date clock s d bs1) d bs2) d
      = blocksOf (add_date clock s d bs2) d := by
  refine ⟨add_date_blocksOf clock _ d bs2, ?_⟩
  rw [add_date_blocksOf, add_date_blocksOf]

/-- C7: `as_array` on an empty collection fails with the empty-input
error (Python raises from `max([])`) instead of returning an array. -/
theorem as_array_empty_input (α : Type) :
    as_array ([] : List (List α)) = Except.error ReaderErr.emptyInput := rfl

/-- C8: the quality check surfaces a confirmation request with the stored
experimenter message exactly when `experimental_quality` contains the
character `n`; otherwise it requires no confirmation, shows no message
and returns `True`; when flagged, the include decision equals the
orchestration-provided interactive answer, not anything the check itself
computes. -/
theorem check_experiment_msg_query (quality msg answer : String) :
    ((check_experiment_msg quality msg answer).requiresConfirmation = true
        ∧ (check_experiment_msg quality msg answer).message = some msg
      ↔ 'n' ∈ quality.data)
    ∧ ('n' ∉ quality.data →
        check_experiment_msg quality msg answer
          = ⟨false, none, true⟩)
    ∧ ('n' ∈ quality.data →
        (check_experiment_msg quality msg answer).addBlock
          = decide ('y' ∈ answer.data)) := by
  refine ⟨?_, ?_, ?_⟩
  · constructor
    · intro hconf
      by_cases hq : 'n' ∈ quality.data
      · exact hq
      · rw [check_experiment_msg, if_neg hq] at hconf
        exact absurd hconf.1 (by simp)
    · intro hq
      rw [check_experiment_msg, if_pos hq]
      exact ⟨rfl, rfl⟩
  · intro hq
    rw [check_experiment_msg, if_neg hq]
  · intro hq
    rw [check_experiment_msg, if_pos hq]

/-- C8 witness. -/
theorem check_experiment_msg_query_witness :
    (check_experiment_msg "ny" "bad sync" "n").requiresConfirmation = true
    ∧ (check_experiment_msg "ny" "bad sync" "n").message = some "bad sync"
    ∧ check_experiment_msg "oy" "unused" "n" = ⟨false, none, true⟩ := by
  refine ⟨?_, ?_, ?_⟩
  · exact ((check_experiment_msg_query "ny" "bad sync" "n").1.mpr (by decide)).1
  · exact ((check_experiment_msg_query "ny" "bad sync" "n").1.mpr (by decide)).2
  · exact (check_experiment_msg_query "oy" "unused" "n").2.1 (by decide)

/-- C3: within one session the composite keys generated by successive
`log_event` calls are pairwise distinct — the zero-padded strictly
increasing counter disambiguates even identical timestamp strings (the
`strftime` format is a fixed 19 characters) — and every entry written in
the session is still present in the final log, so no session entry is
overwritten by a later call of the same session. -/
theorem log_event_keys_unique (clock : Nat → String) (s : DSState)
    (msgs : List String) (hclock : ∀ n, (clock n).length = 19) :
    (sessionKeys clock s.log_count msgs.length).Nodup
    ∧ ∀ (i : Nat) (hi : i < msgs.length),
        (mkLogKey (clock (s.log_count + i)) (s.log_count + i),
            msgs.get ⟨i, hi⟩)
          ∈ (runSession clock s msgs).log :=
  ⟨sessionKeys_nodup clock hclock s.log_count msgs.length,
   fun i hi => runSession_mem clock hclock msgs s i hi⟩

/-- C3 witness: two calls under a constant clock (same timestamp string)
get the distinct keys `(000)` and `(001)` and both entries survive. -/
theorem log_event_keys_unique_witness :
    (∀ n, (clock0 n).length = 19)
    ∧ (sessionKeys clock0 0 2).Nodup
    ∧ ("2024-05-06 12:00:00 (000)", "first")
        ∈ (runSession clock0 st0 ["first", "second"]).log
    ∧ ("2024-05-06 12:00:00 (001)", "second")
        ∈ (runSession clock0 st0 ["first", "second"]).log := by
  have hc19 : ("2024-05-06 12:00:00" : String).length = 19 := by decide
  have hclock : ∀ n, (clock0 n).length = 19 := fun _ => hc19
  have h := log_event_keys_unique clock0 st0 ["first", "second"] hclock
  refine ⟨hclock, h.1, ?_, ?_⟩
  · have hk : mkLogKey (clock0 (st0.log_count + 0)) (st0.log_count + 0)
        = "2024-05-06 12:00:00 (000)" := by decide
    have hm := h.2 0 (by decide)
    rw [hk] at hm
    exact hm
  · have hk : mkLogKey (clock0 (st0.log_count + 1)) (st0.log_count + 1)
        = "2024-05-06 12:00:00 (001)" := by decide
    have hm := h.2 1 (by decide)
    rw [hk] at hm
    exact hm

/-- C5: re-adding a mouse is a no-op — if the mouse is already in
`mouse_list`, `add_mouse` changes nothing and logs nothing, so two
consecutive `add_mouse` calls equal one; a first-time addition appends
exactly one log entry and creates exactly one persisted subtree. -/
theorem add_mouse_idem (clock : Nat → String) (s : DSState) (m : String) :
    add_mouse clock (add_mouse clock s m) m = add_mouse clock s m
    ∧ (m ∈ s.mouse_list → add_mouse clock s m = s)
    ∧ (m ∉ s.mouse_list → m ∉ s.tree.map Prod.fst →
        mkLogKey (clock s.log_count) s.log_count ∉ s.log.map Prod.fst →
          (add_mouse clock s m).log
              = s.log ++ [(mkLogKey (clock s.log_count) s.log_count,
                  "Added mouse " ++ m)]
          ∧ (add_mouse clock s m).tree.countP (fun p => p.1 = m) = 1
          ∧ getVal (add_mouse clock s m).tree m = some []) := by
  have hmem : m ∈ (add_mouse clock s m).mouse_list := by
    by_cases hm : m ∈ s.mouse_list
    · rw [add_mouse, if_pos hm]
      exact hm
    · rw [add_mouse, if_neg hm]
      exact List.mem_append_right _ (List.mem_singleton.mpr rfl)
  refine ⟨?_, ?_, ?_⟩
  · conv_lhs => rw [add_mouse]
    rw [if_pos hmem]
  · intro hm
    rw [add_mouse, if_pos hm]
  · intro hm ht hk
    have hnone : getVal s.tree m = none := getVal_eq_none s.tree m ht
    have hreq : require_group s.tree m ([] : MouseTree)
        = s.tree ++ [(m, [])] := by
      rw [require_group, if_neg (by rw [hnone]; simp)]
    have hunfold : add_mouse clock s m
        = log_event clock
            { s with
              mouse_list := s.mouse_list ++ [m],
              tree := require_group s.tree m [],
              mouse_objects := s.mouse_objects
                ++ [⟨m, ((getVal (require_group s.tree m []) m).getD []).map
                      Prod.fst⟩] }
            ("Added mouse " ++ m) := by
      rw [add_mouse, if_neg hm]
    refine ⟨?_, ?_, ?_⟩
    · rw [hunfold]
      show attrsSet s.log (mkLogKey (clock s.log_count) s.log_count)
            ("Added mouse " ++ m)
          = s.log ++ [(mkLogKey (clock s.log_count) s.log_count,
              "Added mouse " ++ m)]
      exact attrsSet_append_of_fresh s.log _ _ hk
    · rw [hunfold]
      show (require_group s.tree m []).countP (fun p => p.1 = m) = 1
      rw [hreq, List.countP_append]
      have h0 : s.tree.countP (fun p => decide (p.1 = m)) = 0 := by
        rw [List.countP_eq_zero]
        intro p hp
        simp only [decide_eq_true_eq]
        exact fun he => ht (List.mem_map.mpr ⟨p, hp, he⟩)
      rw [h0]
      simp [List.countP_cons]
    · rw [hunfold]
      show getVal (require_group s.tree m []) m = some []
      rw [hreq]
      exact getVal_append_right s.tree m [] hnone

/-- C5 witness: adding mouse 7011 to a fresh dataset twice yields one log
entry and one subtree, and the second call is the identity. -/
theorem add_mouse_idem_witness :
    ("7011" ∉ st0.mouse_list)
    ∧ (add_mouse clock0 st0 "7011").log
        = [(mkLogKey (clock0 0) 0, "Added mouse " ++ "7011")]
    ∧ (add_mouse clock0 st0 "7011").tree.countP (fun p => p.1 = "7011") = 1
    ∧ add_mouse clock0 (add_mouse clock0 st0 "7011") "7011"
        = add_mouse clock0 st0 "7011" := by
  have h := add_mouse_idem clock0 st0 "7011"
  have h3 := h.2.2 (by decide) (by decide) (by decide)
  exact ⟨by decide, h3.1, h3.2.1, h.1⟩

/-- C6: on a non-empty collection, `as_array` returns one row per input
sequence; every row is as wide as the longest input sequence; row `i`
starts with the left-aligned copy of input sequence `i` and all its
remaining cells are the missing-value sentinel. -/
theorem as_array_ragged {α : Type} (nested : List (List α))
    (h : nested ≠ []) :
    ∃ out, as_array nested = .ok out
      ∧ out.length = nested.length
      ∧ (∀ row ∈ out, row.length = maxLength (nested.map List.length))
      ∧ (∀ v ∈ nested, v.length ≤ maxLength (nested.map List.length))
      ∧ (∃ v ∈ nested, v.length = maxLength (nested.map List.length))
      ∧ (∀ (i : Nat) (hi : i < nested.length) (ho : i < out.length),
          (out.get ⟨i, ho⟩).take (nested.get ⟨i, hi⟩).length
              = (nested.get ⟨i, hi⟩).map some
          ∧ ∀ c ∈ (out.get ⟨i, ho⟩).drop (nested.get ⟨i, hi⟩).length,
              c = none) := by
  cases nested with
  | nil => exact absurd rfl h
  | cons v rest =>
    refine ⟨((v :: rest).map (fun w =>
        w.map some ++ List.replicate
          (maxLength ((v :: rest).map List.length) - w.length) none)),
      ?_, by simp, ?_, ?_, ?_, ?_⟩
    · rfl
    · intro row hrow
      obtain ⟨w, hw, rfl⟩ := List.mem_map.mp hrow
      have hle : w.length ≤ maxLength ((v :: rest).map List.length) :=
        mem_le_foldl_max _ 0 w.length (List.mem_map_of_mem List.length hw)
      simp only [List.length_append, List.length_map, List.length_replicate]
      omega
    · intro w hw
      exact mem_le_foldl_max _ 0 w.length (List.mem_map_of_mem List.length hw)
    · rcases foldl_max_mem ((v :: rest).map List.length) 0 with hmem | h0
      · obtain ⟨w, hw, hlen⟩ := List.mem_map.mp hmem
        exact ⟨w, hw, hlen⟩
      · have hv : v.length ≤ maxLength ((v :: rest).map List.length) :=
          mem_le_foldl_max _ 0 v.length
            (List.mem_map_of_mem List.length (List.mem_cons_self v rest))
        exact ⟨v, List.mem_cons_self v rest, by
          have h0m : maxLength ((v :: rest).map List.length) = 0 := h0
          omega⟩
    · intro i hi ho
      have hrow : ((v :: rest).map fun w =>
            w.map some ++ List.replicate
              (maxLength ((v :: rest).map List.length) - w.length) none).get
              ⟨i, ho⟩
          = ((v :: rest).get ⟨i, hi⟩).map some
            ++ List.replicate
              (maxLength ((v :: rest).map List.length)
                - ((v :: rest).get ⟨i, hi⟩).length) none := by
        simp only [List.get_eq_getElem, List.getElem_map]
      rw [hrow]
      constructor
      · exact List.take_left' (by simp)
      · rw [List.drop_left' (by simp)]
        intro c hc
        exact List.eq_of_mem_replicate hc

/-- C6 witness: the specification's lengths-[3,1,2] example. -/
theorem as_array_ragged_witness :
    (([[1, 2, 3], [4], [5, 6]] : List (List Int)) ≠ [])
    ∧ ∃ out, as_array ([[1, 2, 3], [4], [5, 6]] : List (List Int)) = .ok out
        ∧ out.length = 3
        ∧ out = [[some 1, some 2, some 3], [some 4, none, none],
                 [some 5, some 6, none]] := by
  refine ⟨by decide, ?_⟩
  obtain ⟨out, h1, h2, _⟩ :=
    as_array_ragged ([[1, 2, 3], [4], [5, 6]] : List (List Int)) (by decide)
  have hconc : as_array ([[1, 2, 3], [4], [5, 6]] : List (List Int))
      = .ok [[some 1, some 2, some 3], [some 4, none, none],
             [some 5, some 6, none]] := by rfl
  rw [h1] at hconc
  have hout := hconc
  refine ⟨out, h1, by simpa using h2, by simpa using hout⟩

/-- C9: when `fieldPath` is absent for any included experiment of a
mouse, `get_data` fails with the field-not-found error rather than
returning a partial result, and any successful nested result covers
every included experiment, one row each. -/
theorem get_data_field_not_found (exps : List ExpRecord) (path : String)
    (vector attr : Bool) :
    ((∃ e ∈ exps, expField attr e path = none) →
      get_data exps path vector attr = .error .fieldNotFound)
    ∧ (∀ rows, get_data exps path false attr = .ok (.nested rows) →
        rows.length = exps.length) := by
  constructor
  · rintro ⟨e, he, hmiss⟩
    unfold get_data
    rw [collectData_none attr path exps e he hmiss]
  · intro rows hok
    unfold get_data at hok
    cases hc : collectData attr path exps with
    | none =>
      rw [hc] at hok
      simp at hok
    | some data =>
      rw [hc] at hok
      have hdr : data = rows := by simpa using hok
      rw [← hdr]
      exact collectData_length attr path exps data hc

/-- C9 witness: one experiment lacking the requested attribute path makes
extraction fail outright. -/
theorem get_data_field_not_found_witness :
    (∃ e ∈ [({ attrs := [], dsets := [("speed", [3, 4])] } : ExpRecord)],
        expField true e "lick" = none)
    ∧ get_data [({ attrs := [], dsets := [("speed", [3, 4])] } : ExpRecord)]
        "lick" false true = .error .fieldNotFound := by
  have hx : ∃ e ∈ [({ attrs := [], dsets := [("speed", [3, 4])] } : ExpRecord)],
      expField true e "lick" = none := by decide
  exact ⟨hx,
    (get_data_field_not_found
      [({ attrs := [], dsets := [("speed", [3, 4])] } : ExpRecord)]
      "lick" false true).1 hx⟩

/-- C10: removing a selected mouse only removes that mouse — every other
subtree keeps its value, every other in-memory mouse object stays, every
previously written log entry is kept, the mouse list merely loses the
removed name, the removed subtree is gone, and exactly one new log entry
is appended. -/
theorem remove_mouse_frame (clock : Nat → String) (s : DSState) (m : String)
    (hm : m ∈ s.mouse_list)
    (hk : mkLogKey (clock s.log_count) s.log_count ∉ s.log.map Prod.fst) :
    (∀ k, k ≠ m →
        getVal (remove_mouse clock s m).tree k = getVal s.tree k)
    ∧ (∀ o : MouseObj, o.name ≠ m →
        (o ∈ (remove_mouse clock s m).mouse_objects ↔ o ∈ s.mouse_objects))
    ∧ (remove_mouse clock s m).log
        = s.log ++ [(mkLogKey (clock s.log_count) s.log_count,
            "Removed mouse " ++ m)]
    ∧ (remove_mouse clock s m).mouse_list = removeFirst s.mouse_list m
    ∧ getVal (remove_mouse clock s m).tree m = none := by
  have hunfold : remove_mouse clock s m
      = log_event clock
          { s with
            mouse_list := removeFirst s.mouse_list m,
            tree := s.tree.filter (fun p => p.1 ≠ m),
            mouse_objects := s.mouse_objects.filter (fun o => o.name ≠ m) }
          ("Removed mouse " ++ m) := by
    rw [remove_mouse, if_pos hm]
  refine ⟨?_, ?_, ?_, ?_, ?_⟩
  · intro k hkm
    rw [hunfold]
    exact getVal_filter_ne s.tree m k hkm
  · intro o ho
    rw [hunfold]
    show o ∈ s.mouse_objects.filter (fun o => o.name ≠ m)
        ↔ o ∈ s.mouse_objects
    rw [List.mem_filter]
    exact ⟨fun hf => hf.1, fun hmem => ⟨hmem, by simpa using ho⟩⟩
  · rw [hunfold]
    show attrsSet s.log (mkLogKey (clock s.log_count) s.log_count)
          ("Removed mouse " ++ m)
        = s.log ++ [(mkLogKey (clock s.log_count) s.log_count,
            "Removed mouse " ++ m)]
    exact attrsSet_append_of_fresh s.log _ _ hk
  · rw [hunfold]
    rfl
  · rw [hunfold]
    exact getVal_filter_self s.tree m

/-- C10 witness: removing mouse 7011 from a two-mouse dataset leaves the
7012 subtree, keeps the earlier log entry and appends exactly one new
one. -/
theorem remove_mouse_frame_witness :
    ("7011" ∈ st2.mouse_list)
    ∧ getVal (remove_mouse clock0 st2 "7011").tree "7012"
        = getVal st2.tree "7012"
    ∧ (remove_mouse clock0 st2 "7011").log
        = st2.log ++ [(mkLogKey (clock0 1) 1, "Removed mouse " ++ "7011")]
    ∧ getVal (remove_mouse clock0 st2 "7011").tree "7011" = none := by
  have h := remove_mouse_frame clock0 st2 "7011" (by decide) (by decide)
  exact ⟨by decide, h.1 "7012" (by decide), h.2.2.1, h.2.2.2.2⟩
